import Mathlib

/-!
Verification of the steganographic codec in `src/stego.rs` of stegano-cli.

The codec hides a byte payload inside a cover text by interleaving three
zero-width Unicode characters (BIT0, BIT1, SEPARATOR) between the visible
characters.  This file shallowly embeds the Rust functions
`bytes_to_zero_width`, `zero_width_to_bytes`, `crc32`, `embed` and `extract`
as executable Lean definitions over `List Char` and `List Nat` (bytes are
naturals below 256, with wrap-around written as `% 256`), and proves the
specification claims about them.
-/

namespace Stego

/-- Zero Width Space, the BIT0 symbol (`ZW_SPACE` in the source). -/
def ZW_SPACE : Char := Char.ofNat 0x200B

/-- Zero Width Non-Joiner, the BIT1 symbol (`ZW_NON_JOINER` in the source). -/
def ZW_NON_JOINER : Char := Char.ofNat 0x200C

/-- Zero Width Joiner, the byte SEPARATOR symbol (`ZW_JOINER` in the source). -/
def ZW_JOINER : Char := Char.ofNat 0x200D

/-- Membership in the 3-symbol invisible alphabet. -/
def isZW (c : Char) : Bool :=
  c == ZW_SPACE || c == ZW_NON_JOINER || c == ZW_JOINER

/-- One shift step of the bitwise CRC-32 (ISO-HDLC, reflected polynomial
`0xEDB88320`), modelling one bit of `crc32fast::hash`. -/
def crc32Round (c : Nat) : Nat :=
  if c % 2 = 1 then (c / 2) ^^^ 0xEDB88320 else c / 2

/-- Absorb one byte into the CRC-32 state (xor into the low byte, then
eight shift rounds). -/
def crc32Update (crc byte : Nat) : Nat :=
  (List.range 8).foldl (fun c _ => crc32Round c) (crc ^^^ byte % 256)

/-- CRC-32/ISO-HDLC of a byte sequence: initial value `0xFFFFFFFF`, final
xor `0xFFFFFFFF`; models `crc32fast::hash` as called by `crc32` in the
source. -/
def crc32 (data : List Nat) : Nat :=
  (data.foldl crc32Update 0xFFFFFFFF) ^^^ 0xFFFFFFFF

/-- `u32::to_le_bytes`: the four little-endian bytes of a 32-bit value. -/
def toLeBytes (n : Nat) : List Nat :=
  [n % 256, n / 2 ^ 8 % 256, n / 2 ^ 16 % 256, n / 2 ^ 24 % 256]

/-- `u32::from_le_bytes`: reassemble a 32-bit value from four bytes. -/
def fromLeBytes (b0 b1 b2 b3 : Nat) : Nat :=
  b0 + b1 * 2 ^ 8 + b2 * 2 ^ 16 + b3 * 2 ^ 24

/-- `bytes_to_zero_width` from the source: for each byte push its 8 bits
most-significant-bit first (`ZW_NON_JOINER` for 1, `ZW_SPACE` for 0), then
one `ZW_JOINER`, accumulating into a growing string. -/
def bytes_to_zero_width (data : List Nat) : List Char :=
  data.foldl
    (fun result byte =>
      ((List.range 8).reverse.foldl
        (fun acc i =>
          acc ++ [if (byte >>> i) &&& 1 == 1 then ZW_NON_JOINER else ZW_SPACE])
        result) ++ [ZW_JOINER])
    []

/-- The bits of a byte, most significant first, as 0/1 naturals. -/
def bitsOfByte (b : Nat) : List Nat :=
  (List.range 8).reverse.map (fun i => (b >>> i) &&& 1)

/-- The symbol for a single bit. -/
def bitChar (bit : Nat) : Char :=
  if bit == 1 then ZW_NON_JOINER else ZW_SPACE

/-- The 9-symbol chunk a single byte encodes to: 8 bit symbols then the
separator. -/
def byteChunk (b : Nat) : List Char :=
  (bitsOfByte b).map bitChar ++ [ZW_JOINER]

/-- The decoder state of `zero_width_to_bytes`: committed bytes, the byte
accumulator (a `u8`, hence kept below 256), and the running bit count. -/
structure DecState where
  result : List Nat
  currentByte : Nat
  bitCount : Nat
  deriving Repr, DecidableEq

/-- One character step of `zero_width_to_bytes`'s match: BIT0/BIT1 shift a
bit into the accumulator (`u8` shift, so modulo 256); the separator commits
the accumulator only when exactly 8 bits have accumulated, and otherwise
leaves the state unchanged; any other character is ignored. -/
def decodeStep (s : DecState) (ch : Char) : DecState :=
  if ch == ZW_SPACE then
    ⟨s.result, (s.currentByte * 2) % 256 ||| 0, s.bitCount + 1⟩
  else if ch == ZW_NON_JOINER then
    ⟨s.result, (s.currentByte * 2) % 256 ||| 1, s.bitCount + 1⟩
  else if ch == ZW_JOINER then
    if s.bitCount == 8 then ⟨s.result ++ [s.currentByte], 0, 0⟩ else s
  else s

/-- The codec's error type (`StegoError` in `error.rs`). -/
inductive StegoError where
  | encryption (msg : String)
  | decryption (msg : String)
  | noDataFound
  | insufficientCover (needed available : Nat)
  | integrityFailure
  | ioError (msg : String)
  deriving Repr, DecidableEq

instance exceptDecidableEq {ε α : Type} [DecidableEq ε] [DecidableEq α] :
    DecidableEq (Except ε α) := fun a b =>
  match a, b with
  | .error e, .error f =>
    if h : e = f then isTrue (by rw [h])
    else isFalse (by intro hh; cases hh; exact h rfl)
  | .error _, .ok _ => isFalse (fun hh => Except.noConfusion hh)
  | .ok _, .error _ => isFalse (fun hh => Except.noConfusion hh)
  | .ok x, .ok y =>
    if h : x = y then isTrue (by rw [h])
    else isFalse (by intro hh; cases hh; exact h rfl)

/-- `zero_width_to_bytes` from the source: fold the decoder over the
characters, then fail with `NoDataFound` iff no byte was committed. -/
def zero_width_to_bytes (encoded : List Char) : Except StegoError (List Nat) :=
  let final := encoded.foldl decodeStep ⟨[], 0, 0⟩
  if final.result.isEmpty then .error .noDataFound else .ok final.result

/-- A decoder step as the spec's §4.1 words describe it: on a separator
with bit-count ≠ 8, *discard* the accumulator state (reset accumulator and
bit count) without emitting a byte.  Used only to compare the spec's
described behaviour with the code's. -/
def decodeStepSpecReset (s : DecState) (ch : Char) : DecState :=
  if ch == ZW_SPACE then
    ⟨s.result, (s.currentByte * 2) % 256 ||| 0, s.bitCount + 1⟩
  else if ch == ZW_NON_JOINER then
    ⟨s.result, (s.currentByte * 2) % 256 ||| 1, s.bitCount + 1⟩
  else if ch == ZW_JOINER then
    if s.bitCount == 8 then ⟨s.result ++ [s.currentByte], 0, 0⟩
    else ⟨s.result, 0, 0⟩
  else s

/-- The decoder the spec's words describe (reset on a misaligned
separator); compared against `zero_width_to_bytes`. -/
def zero_width_to_bytes_specReset (encoded : List Char) :
    Except StegoError (List Nat) :=
  let final := encoded.foldl decodeStepSpecReset ⟨[], 0, 0⟩
  if final.result.isEmpty then .error .noDataFound else .ok final.result

/-- The distribution loop of `embed` (`for (i, ch) in visible_chars`): emit
each visible character; when `i < visible_chars.len() - 1` and symbols
remain, also emit the next `chunk_size + 1` symbols (clipped to the stream
length) and advance the cursor.  Returns the emitted characters and the
final cursor. -/
def distributeLoop (zw : List Char) (chunkSize total : Nat) :
    List Char → Nat → Nat → List Char × Nat
  | [], _, zwIndex => ([], zwIndex)
  | ch :: rest, i, zwIndex =>
    if i < total - 1 ∧ zwIndex < zw.length then
      let e := min (zwIndex + chunkSize + 1) zw.length
      let p := distributeLoop zw chunkSize total rest (i + 1) e
      (ch :: ((zw.drop zwIndex).take (e - zwIndex)) ++ p.1, p.2)
    else
      let p := distributeLoop zw chunkSize total rest (i + 1) zwIndex
      (ch :: p.1, p.2)

/-- `embed` from the source: prepend the CRC-32 checksum (4 little-endian
bytes) to the payload, encode to zero-width symbols, reject when the
capacity `(len − 1) / 9` is below the checksummed length, otherwise
distribute the symbols across the cover and append any remainder. -/
def embed (coverText : List Char) (payload : List Nat) :
    Except StegoError (List Char) :=
  let checksum := crc32 payload
  let dataWithChecksum := toLeBytes checksum ++ payload
  let encoded := bytes_to_zero_width dataWithChecksum
  let visibleChars := coverText
  let injectionPoints := visibleChars.length - 1
  let capacity := injectionPoints / 9
  if capacity < dataWithChecksum.length then
    .error (.insufficientCover dataWithChecksum.length capacity)
  else
    let zwChars := encoded
    let chunkSize :=
      if injectionPoints > 0 then zwChars.length / injectionPoints
      else zwChars.length
    let p := distributeLoop zwChars chunkSize visibleChars.length visibleChars 0 0
    .ok (p.1 ++ zwChars.drop p.2)

/-- The capacity of a cover text: `floor((visible_char_count − 1) / 9)`
with saturating subtraction, as computed inside `embed`. -/
def capacityOf (coverText : List Char) : Nat :=
  (coverText.length - 1) / 9

/-- `extract` from the source: decode the zero-width characters, require at
least 4 bytes, split off the stored little-endian checksum, recompute the
CRC-32 of the remainder and compare. -/
def extract (artifact : List Char) : Except StegoError (List Nat) :=
  match zero_width_to_bytes artifact with
  | .error e => .error e
  | .ok dataWithChecksum =>
    if dataWithChecksum.length < 4 then .error .noDataFound
    else
      let stored := fromLeBytes (dataWithChecksum.getD 0 0)
        (dataWithChecksum.getD 1 0) (dataWithChecksum.getD 2 0)
        (dataWithChecksum.getD 3 0)
      let payload := dataWithChecksum.drop 4
      let computed := crc32 payload
      if stored ≠ computed then .error .integrityFailure
      else .ok payload

/-! ### Panic-free refinements

The Rust code contains three operations that could in principle panic: the
loop-guard subtraction `visible_chars.len() - 1`, the slice
`zw_chars[zw_index..end]` (and the final `zw_chars[zw_index..]`), and the
index accesses `data_with_checksum[0..=3]`.  The `Checked` variants below
model each of these as an `Option`-returning operation that fails instead
of panicking; proving them equal to `some` of the total model shows the
code never hits those panics. -/

/-- Subtraction that fails (instead of underflowing) when `b > a`. -/
def checkedSub (a b : Nat) : Option Nat :=
  if b ≤ a then some (a - b) else none

/-- Rust slice `l[a..b]`, failing (instead of panicking) when the bounds
are invalid. -/
def sliceChecked (l : List Char) (a b : Nat) : Option (List Char) :=
  if a ≤ b ∧ b ≤ l.length then some ((l.drop a).take (b - a)) else none

/-- `distributeLoop` with the loop-guard subtraction and the chunk slice
modelled as fallible operations. -/
def distributeLoopChecked (zw : List Char) (chunkSize total : Nat) :
    List Char → Nat → Nat → Option (List Char × Nat)
  | [], _, zwIndex => some ([], zwIndex)
  | ch :: rest, i, zwIndex => do
    let lim ← checkedSub total 1
    if i < lim ∧ zwIndex < zw.length then
      let e := min (zwIndex + chunkSize + 1) zw.length
      let chunk ← sliceChecked zw zwIndex e
      let p ← distributeLoopChecked zw chunkSize total rest (i + 1) e
      some (ch :: chunk ++ p.1, p.2)
    else
      let p ← distributeLoopChecked zw chunkSize total rest (i + 1) zwIndex
      some (ch :: p.1, p.2)

/-- `embed` with every potentially panicking operation fallible. -/
def embedChecked (coverText : List Char) (payload : List Nat) :
    Option (Except StegoError (List Char)) :=
  let checksum := crc32 payload
  let dataWithChecksum := toLeBytes checksum ++ payload
  let encoded := bytes_to_zero_width dataWithChecksum
  let injectionPoints := coverText.length - 1
  let capacity := injectionPoints / 9
  if capacity < dataWithChecksum.length then
    some (.error (.insufficientCover dataWithChecksum.length capacity))
  else
    let chunkSize :=
      if injectionPoints > 0 then encoded.length / injectionPoints
      else encoded.length
    do
      let p ← distributeLoopChecked encoded chunkSize coverText.length coverText 0 0
      let tail ← sliceChecked encoded p.2 encoded.length
      some (.ok (p.1 ++ tail))

/-- `extract` with the four checksum-byte index accesses fallible. -/
def extractChecked (artifact : List Char) : Option (Except StegoError (List Nat)) :=
  match zero_width_to_bytes artifact with
  | .error e => some (.error e)
  | .ok d =>
    if d.length < 4 then some (.error .noDataFound)
    else do
      let b0 ← d[0]?
      let b1 ← d[1]?
      let b2 ← d[2]?
      let b3 ← d[3]?
      let stored := fromLeBytes b0 b1 b2 b3
      let payload := d.drop 4
      if stored ≠ crc32 payload then some (.error .integrityFailure)
      else some (.ok payload)

/-- Removal of every BIT1 symbol, as the corruption test does with
`artifact.replace(ZW_NON_JOINER, "")`. -/
def removeAllBit1 (s : List Char) : List Char :=
  s.filter (fun c => !(c == ZW_NON_JOINER))

/-- A 46-character cover text with no invisible-alphabet characters. -/
def cover46 : List Char := List.replicate 46 'a'

/-- A 40-character cover text with no invisible-alphabet characters
(capacity 4, just enough for an empty payload). -/
def cover40 : List Char := List.replicate 40 'a'

/-- A 91-character cover text consisting entirely of the BIT1 symbol
`ZW_NON_JOINER`; its capacity is `90 / 9 = 10`. -/
def cover91 : List Char := List.replicate 91 ZW_NON_JOINER

/-- Seven BIT0 symbols, a separator, one BIT1 symbol, a separator: the
symbol sequence exercising a separator that arrives at bit-count 7. -/
def misalignedSep : List Char :=
  List.replicate 7 ZW_SPACE ++ [ZW_JOINER, ZW_NON_JOINER, ZW_JOINER]

/-! ### Helper lemmas: the encoder -/

lemma foldl_push_map (f : Nat → Char) :
    ∀ (l : List Nat) (acc : List Char),
      l.foldl (fun a i => a ++ [f i]) acc = acc ++ l.map f := by
  intro l
  induction l with
  | nil => simp
  | cons x xs ih => intro acc; simp [ih]

lemma bytes_to_zero_width_foldl :
    ∀ (data : List Nat) (acc : List Char),
      data.foldl
        (fun result byte =>
          ((List.range 8).reverse.foldl
            (fun acc i =>
              acc ++ [if (byte >>> i) &&& 1 == 1 then ZW_NON_JOINER else ZW_SPACE])
            result) ++ [ZW_JOINER])
        acc = acc ++ data.flatMap byteChunk := by
  intro data
  induction data with
  | nil => simp
  | cons b bs ih =>
    intro acc
    rw [List.foldl_cons, ih, foldl_push_map]
    simp only [byteChunk, bitsOfByte, List.flatMap_cons, List.map_map]
    simp [bitChar, Function.comp, List.append_assoc]

/-- `bytes_to_zero_width` emits, per byte, its 8 bit symbols then a
separator. -/
lemma bytes_to_zero_width_eq (data : List Nat) :
    bytes_to_zero_width data = data.flatMap byteChunk := by
  rw [bytes_to_zero_width, bytes_to_zero_width_foldl]
  simp

lemma bitsOfByte_length (b : Nat) : (bitsOfByte b).length = 8 := by
  simp [bitsOfByte]

lemma byteChunk_length (b : Nat) : (byteChunk b).length = 9 := by
  simp [byteChunk, bitsOfByte]

lemma bytes_to_zero_width_length (data : List Nat) :
    (bytes_to_zero_width data).length = 9 * data.length := by
  rw [bytes_to_zero_width_eq]
  induction data with
  | nil => simp
  | cons b bs ih => simp [ih, byteChunk_length]; ring

lemma isZW_bitChar (bit : Nat) : isZW (bitChar bit) = true := by
  rw [bitChar]
  by_cases h : bit == 1 <;> simp [h, isZW, ZW_SPACE, ZW_NON_JOINER, ZW_JOINER]

lemma mem_byteChunk_isZW {c : Char} {b : Nat} (h : c ∈ byteChunk b) :
    isZW c = true := by
  rw [byteChunk] at h
  rcases List.mem_append.1 h with h' | h'
  · obtain ⟨bit, _, rfl⟩ := List.mem_map.1 h'
    exact isZW_bitChar bit
  · simp only [List.mem_singleton] at h'
    subst h'
    decide

lemma mem_bytes_to_zero_width_isZW {c : Char} {data : List Nat}
    (h : c ∈ bytes_to_zero_width data) : isZW c = true := by
  rw [bytes_to_zero_width_eq] at h
  obtain ⟨b, _, hc⟩ := List.mem_flatMap.1 h
  exact mem_byteChunk_isZW hc

/-! ### Helper lemmas: the decoder -/

lemma decodeStep_not_zw {ch : Char} (h : isZW ch = false) (s : DecState) :
    decodeStep s ch = s := by
  simp only [isZW, Bool.or_eq_false_iff] at h
  simp [decodeStep, h.1.1, h.1.2, h.2]

/-- Decoding a character sequence is the same as decoding just its
invisible-alphabet characters: everything else is a no-op. -/
lemma foldl_decodeStep_filter :
    ∀ (l : List Char) (s : DecState),
      l.foldl decodeStep s = (l.filter isZW).foldl decodeStep s := by
  intro l
  induction l with
  | nil => simp
  | cons c cs ih =>
    intro s
    cases hc : isZW c with
    | false => simp [List.filter_cons, hc, ih, decodeStep_not_zw hc]
    | true => simp [List.filter_cons, hc, ih]

lemma foldl_decodeStep_bitChars :
    ∀ (bits : List Nat), (∀ x ∈ bits, x = 0 ∨ x = 1) →
      ∀ (res : List Nat) (cur cnt : Nat),
        (bits.map bitChar).foldl decodeStep ⟨res, cur, cnt⟩ =
          ⟨res, bits.foldl (fun c bit => (c * 2) % 256 ||| bit) cur,
            cnt + bits.length⟩ := by
  intro bits
  induction bits with
  | nil => simp
  | cons x xs ih =>
    intro hx res cur cnt
    rcases hx x (List.mem_cons_self x xs) with rfl | rfl
    · rw [List.map_cons, List.foldl_cons]
      have hstep : decodeStep ⟨res, cur, cnt⟩ (bitChar 0) =
          ⟨res, (cur * 2) % 256 ||| 0, cnt + 1⟩ := by
        simp [decodeStep, bitChar, ZW_SPACE]
      rw [hstep, ih (fun y hy => hx y (List.mem_cons_of_mem _ hy))]
      simp only [List.foldl_cons, List.length_cons]
      congr 1
      omega
    · rw [List.map_cons, List.foldl_cons]
      have hstep : decodeStep ⟨res, cur, cnt⟩ (bitChar 1) =
          ⟨res, (cur * 2) % 256 ||| 1, cnt + 1⟩ := by
        simp [decodeStep, bitChar, ZW_SPACE, ZW_NON_JOINER]
      rw [hstep, ih (fun y hy => hx y (List.mem_cons_of_mem _ hy))]
      simp only [List.foldl_cons, List.length_cons]
      congr 1
      omega

lemma bitsOfByte_zero_or_one (b : Nat) :
    ∀ x ∈ bitsOfByte b, x = 0 ∨ x = 1 := by
  intro x hx
  rw [bitsOfByte] at hx
  obtain ⟨i, _, rfl⟩ := List.mem_map.1 hx
  have : (b >>> i) &&& 1 = (b >>> i) % 2 := Nat.and_one_is_mod _
  omega

set_option maxRecDepth 100000 in
/-- Shifting the 8 bits of a byte (MSB first) back into an accumulator
recovers the byte. -/
lemma bitsOfByte_foldl :
    ∀ b : Fin 256,
      (bitsOfByte b.val).foldl (fun c bit => (c * 2) % 256 ||| bit) 0 = b.val := by
  decide

/-- Decoding the 9-symbol chunk of one byte from a fresh accumulator
commits exactly that byte. -/
lemma foldl_decodeStep_byteChunk {b : Nat} (hb : b < 256) (res : List Nat) :
    (byteChunk b).foldl decodeStep ⟨res, 0, 0⟩ = ⟨res ++ [b], 0, 0⟩ := by
  rw [byteChunk, List.foldl_append,
    foldl_decodeStep_bitChars _ (bitsOfByte_zero_or_one b),
    bitsOfByte_foldl ⟨b, hb⟩]
  simp [decodeStep, bitsOfByte_length, ZW_SPACE, ZW_NON_JOINER, ZW_JOINER]

/-- Decoding the encoding of a byte sequence commits exactly that
sequence. -/
lemma foldl_decodeStep_encode :
    ∀ (data : List Nat), (∀ b ∈ data, b < 256) → ∀ (res : List Nat),
      (data.flatMap byteChunk).foldl decodeStep ⟨res, 0, 0⟩ =
        ⟨res ++ data, 0, 0⟩ := by
  intro data
  induction data with
  | nil => simp
  | cons b bs ih =>
    intro hlt res
    rw [List.flatMap_cons, List.foldl_append,
      foldl_decodeStep_byteChunk (hlt b (List.mem_cons_self b bs)),
      ih (fun y hy => hlt y (List.mem_cons_of_mem _ hy))]
    simp

/-- BitCodec round trip: decoding an encoded byte sequence returns it
exactly (or `NoDataFound` for the empty sequence). -/
lemma zero_width_to_bytes_encode (data : List Nat) (h : ∀ b ∈ data, b < 256) :
    zero_width_to_bytes (bytes_to_zero_width data) =
      if data.isEmpty then .error .noDataFound else .ok data := by
  rw [zero_width_to_bytes, bytes_to_zero_width_eq,
    foldl_decodeStep_encode data h []]
  simp only [List.nil_append]

/-! ### Helper lemmas: CRC-32 and little-endian bytes -/

lemma xor_lt_two_pow {x y n : Nat} (hx : x < 2 ^ n) (hy : y < 2 ^ n) :
    x ^^^ y < 2 ^ n := by
  have h := Nat.bitwise_lt (f := bne) hx hy
  simpa [HXor.hXor, Xor.xor, Nat.xor] using h

lemma lor_lt_two_pow {x y n : Nat} (hx : x < 2 ^ n) (hy : y < 2 ^ n) :
    x ||| y < 2 ^ n := by
  have h := Nat.bitwise_lt (f := or) hx hy
  simpa [HOr.hOr, OrOp.or, Nat.lor] using h

lemma crc32Round_lt {c : Nat} (h : c < 2 ^ 32) : crc32Round c < 2 ^ 32 := by
  rw [crc32Round]
  split
  · exact xor_lt_two_pow (by omega) (by norm_num)
  · omega

lemma crc32Update_lt {crc : Nat} (byte : Nat) (h : crc < 2 ^ 32) :
    crc32Update crc byte < 2 ^ 32 := by
  rw [crc32Update]
  have h0 : crc ^^^ byte % 256 < 2 ^ 32 :=
    xor_lt_two_pow h (by have := Nat.mod_lt byte (y := 256) (by norm_num); omega)
  generalize crc ^^^ byte % 256 = c at h0
  generalize List.range 8 = l
  induction l generalizing c with
  | nil => simpa using h0
  | cons x xs ih => exact ih _ (crc32Round_lt h0)

lemma crc32_lt (data : List Nat) : crc32 data < 2 ^ 32 := by
  rw [crc32]
  refine xor_lt_two_pow ?_ (by norm_num)
  have : ∀ (l : List Nat) (acc : Nat), acc < 2 ^ 32 →
      l.foldl crc32Update acc < 2 ^ 32 := by
    intro l
    induction l with
    | nil => intro acc h; simpa using h
    | cons x xs ih => intro acc h; exact ih _ (crc32Update_lt x h)
  exact this data 0xFFFFFFFF (by norm_num)

lemma fromLeBytes_toLeBytes {n : Nat} (h : n < 2 ^ 32) :
    fromLeBytes (n % 256) (n / 2 ^ 8 % 256) (n / 2 ^ 16 % 256)
      (n / 2 ^ 24 % 256) = n := by
  rw [fromLeBytes]
  norm_num
  omega

lemma toLeBytes_lt (n : Nat) : ∀ b ∈ toLeBytes n, b < 256 := by
  intro b hb
  rw [toLeBytes] at hb
  simp only [List.mem_cons, List.not_mem_nil, or_false] at hb
  rcases hb with rfl | rfl | rfl | rfl <;> omega

lemma toLeBytes_length (n : Nat) : (toLeBytes n).length = 4 := by
  rw [toLeBytes]; rfl

lemma toLeBytes_fromLeBytes {b0 b1 b2 b3 : Nat} (h0 : b0 < 256)
    (h1 : b1 < 256) (h2 : b2 < 256) (h3 : b3 < 256) :
    toLeBytes (fromLeBytes b0 b1 b2 b3) = [b0, b1, b2, b3] := by
  rw [toLeBytes, fromLeBytes]
  norm_num
  omega

/-! ### Helper lemmas: the distributor -/

lemma take_drop_glue (zw : List Char) {a b : Nat} (hab : a ≤ b) :
    (zw.drop a).take (b - a) ++ zw.drop b = zw.drop a := by
  have h2 : (zw.drop a).drop (b - a) = zw.drop b := by
    rw [List.drop_drop]
    congr 1
    omega
  conv_rhs => rw [← List.take_append_drop (b - a) (zw.drop a)]
  rw [h2]

lemma distributeLoop_nil (zw : List Char) (cs total i zwIdx : Nat) :
    distributeLoop zw cs total [] i zwIdx = ([], zwIdx) := rfl

lemma distributeLoop_cons (zw : List Char) (cs total i zwIdx : Nat)
    (ch : Char) (rest : List Char) :
    distributeLoop zw cs total (ch :: rest) i zwIdx =
      if i < total - 1 ∧ zwIdx < zw.length then
        let e := min (zwIdx + cs + 1) zw.length
        let p := distributeLoop zw cs total rest (i + 1) e
        (ch :: ((zw.drop zwIdx).take (e - zwIdx)) ++ p.1, p.2)
      else
        let p := distributeLoop zw cs total rest (i + 1) zwIdx
        (ch :: p.1, p.2) := rfl

/-- The consumption cursor of the distribution loop never moves backwards
and never passes the end of the symbol stream. -/
lemma distributeLoop_cursor (zw : List Char) (cs total : Nat) :
    ∀ (vis : List Char) (i zwIdx : Nat), zwIdx ≤ zw.length →
      zwIdx ≤ (distributeLoop zw cs total vis i zwIdx).2 ∧
      (distributeLoop zw cs total vis i zwIdx).2 ≤ zw.length := by
  intro vis
  induction vis with
  | nil => intro i zwIdx h; simp [distributeLoop]; omega
  | cons ch rest ih =>
    intro i zwIdx h
    simp only [distributeLoop]
    split
    case isTrue hcond =>
      have he1 : zwIdx ≤ min (zwIdx + cs + 1) zw.length :=
        le_min (by omega) (le_of_lt hcond.2)
      have he2 : min (zwIdx + cs + 1) zw.length ≤ zw.length := min_le_right _ _
      have hih := ih (i + 1) (min (zwIdx + cs + 1) zw.length) he2
      exact ⟨le_trans he1 hih.1, hih.2⟩
    case isFalse =>
      exact ih (i + 1) zwIdx h

/-- Projections of the distribution loop output: the non-invisible
characters are exactly the visible characters walked over, and the
invisible characters followed by the unconsumed symbols are exactly the
symbol stream from the starting cursor on. -/
lemma distributeLoop_filter (zw : List Char) (cs total : Nat)
    (hzw : ∀ c ∈ zw, isZW c = true) :
    ∀ (vis : List Char) (i zwIdx : Nat), zwIdx ≤ zw.length →
      (∀ c ∈ vis, isZW c = false) →
      (distributeLoop zw cs total vis i zwIdx).1.filter
          (fun c => !(isZW c)) = vis ∧
      (distributeLoop zw cs total vis i zwIdx).1.filter isZW ++
          zw.drop (distributeLoop zw cs total vis i zwIdx).2 =
        zw.drop zwIdx := by
  intro vis
  induction vis with
  | nil => intro i zwIdx h _; simp [distributeLoop]
  | cons ch rest ih =>
    intro i zwIdx h hvis
    have hch : isZW ch = false := hvis ch (List.mem_cons_self ch rest)
    have hrest : ∀ c ∈ rest, isZW c = false :=
      fun c hc => hvis c (List.mem_cons_of_mem _ hc)
    rw [distributeLoop_cons]
    split
    case isTrue hcond =>
      dsimp only
      set e := min (zwIdx + cs + 1) zw.length with hedef
      have he1 : zwIdx ≤ e := le_min (by omega) (le_of_lt hcond.2)
      have he2 : e ≤ zw.length := min_le_right _ _
      obtain ⟨ih1, ih2⟩ := ih (i + 1) e he2 hrest
      set p := distributeLoop zw cs total rest (i + 1) e with hpdef
      set chunk := (zw.drop zwIdx).take (e - zwIdx) with hchunkdef
      have hchunk : ∀ c ∈ chunk, isZW c = true := by
        intro c hc
        rw [hchunkdef] at hc
        exact hzw c (List.drop_subset _ _ (List.take_subset _ _ hc))
      constructor
      · have hnil : chunk.filter (fun c => !(isZW c)) = [] :=
          List.filter_eq_nil_iff.2 (fun c hc => by simp [hchunk c hc])
        have step1 : (ch :: chunk ++ p.1).filter (fun c => !(isZW c)) =
            ch :: p.1.filter (fun c => !(isZW c)) := by
          simp [List.filter_cons, List.filter_append, hch, hnil]
        rw [step1, ih1]
      · have hself : chunk.filter isZW = chunk :=
          List.filter_eq_self.2 hchunk
        have step1 : (ch :: chunk ++ p.1).filter isZW =
            chunk ++ p.1.filter isZW := by
          simp [List.filter_cons, List.filter_append, hch, hself]
        rw [step1, List.append_assoc, ih2, take_drop_glue zw he1]
    case isFalse =>
      dsimp only
      obtain ⟨ih1, ih2⟩ := ih (i + 1) zwIdx h hrest
      set p := distributeLoop zw cs total rest (i + 1) zwIdx with hpdef
      constructor
      · have step1 : (ch :: p.1).filter (fun c => !(isZW c)) =
            ch :: p.1.filter (fun c => !(isZW c)) := by
          simp [List.filter_cons, hch]
        rw [step1, ih1]
      · have step1 : (ch :: p.1).filter isZW = p.1.filter isZW := by
          simp [List.filter_cons, hch]
        rw [step1, ih2]

/-- The final consumption cursor of the loop: starting from `zwIdx`, each
of the `vis.length − 1` injection slots advances it by `chunkSize + 1`,
clipped to the stream length. -/
lemma distributeLoop_finalIdx (zw : List Char) (cs total : Nat) :
    ∀ (vis : List Char) (i zwIdx : Nat), vis ≠ [] → i + vis.length = total →
      zwIdx ≤ zw.length →
      (distributeLoop zw cs total vis i zwIdx).2 =
        min (zwIdx + (cs + 1) * (vis.length - 1)) zw.length := by
  intro vis
  induction vis with
  | nil => intro i zwIdx h; exact absurd rfl h
  | cons ch rest ih =>
    intro i zwIdx _ htot hzw
    cases rest with
    | nil =>
      have hguard : ¬ (i < total - 1 ∧ zwIdx < zw.length) := by
        simp only [List.length_cons, List.length_nil] at htot
        omega
      rw [distributeLoop_cons, if_neg hguard]
      dsimp only
      rw [distributeLoop_nil]
      simp only [List.length_cons, List.length_nil]
      omega
    | cons ch2 rest2 =>
      have hlt : i < total - 1 := by
        simp only [List.length_cons] at htot
        omega
      rw [distributeLoop_cons]
      split
      case isTrue hcond =>
        dsimp only
        have he2 : min (zwIdx + cs + 1) zw.length ≤ zw.length := min_le_right _ _
        have hih := ih (i + 1) (min (zwIdx + cs + 1) zw.length)
          (by simp) (by simp only [List.length_cons] at htot ⊢; omega) he2
        simp only [List.length_cons] at hih ⊢
        rw [hih]
        have hmul : (cs + 1) * (rest2.length + 1 + 1 - 1) =
            (cs + 1) * rest2.length + (cs + 1) := by
          have h9 : rest2.length + 1 + 1 - 1 = rest2.length + 1 := by omega
          rw [h9, Nat.mul_succ]
        have hmul2 : (cs + 1) * (rest2.length + 1 - 1) =
            (cs + 1) * rest2.length := by
          have h9 : rest2.length + 1 - 1 = rest2.length := by omega
          rw [h9]
        rw [hmul, hmul2]
        omega
      case isFalse hcond =>
        dsimp only
        have hzeq : zwIdx = zw.length := by
          rcases not_and_or.1 hcond with h' | h'
          · exact absurd hlt h'
          · omega
        have hih := ih (i + 1) zwIdx (by simp)
          (by simp only [List.length_cons] at htot ⊢; omega) hzw
        simp only [List.length_cons] at hih ⊢
        rw [hih]
        have hmul : (cs + 1) * (rest2.length + 1 + 1 - 1) =
            (cs + 1) * rest2.length + (cs + 1) := by
          have h9 : rest2.length + 1 + 1 - 1 = rest2.length + 1 := by omega
          rw [h9, Nat.mul_succ]
        have hmul2 : (cs + 1) * (rest2.length + 1 - 1) =
            (cs + 1) * rest2.length := by
          have h9 : rest2.length + 1 - 1 = rest2.length := by omega
          rw [h9]
        rw [hmul, hmul2]
        omega

/-! ### Helper lemmas: embed and extract pipelines -/

/-- Decoding ignores everything outside the 3-symbol alphabet. -/
lemma zero_width_to_bytes_filter (l : List Char) :
    zero_width_to_bytes l = zero_width_to_bytes (l.filter isZW) := by
  rw [zero_width_to_bytes, zero_width_to_bytes, foldl_decodeStep_filter]

lemma checksummed_length (P : List Nat) :
    (toLeBytes (crc32 P) ++ P).length = 4 + P.length := by
  rw [List.length_append, toLeBytes_length]

lemma checksummed_lt (P : List Nat) (hP : ∀ b ∈ P, b < 256) :
    ∀ b ∈ toLeBytes (crc32 P) ++ P, b < 256 := by
  intro b hb
  rcases List.mem_append.1 hb with h' | h'
  · exact toLeBytes_lt _ b h'
  · exact hP b h'

/-- The two character-class projections of a distributed artifact: the
visible characters are exactly the cover, the invisible ones exactly the
symbol stream. -/
lemma artifact_filters (data : List Nat) (C : List Char) (cs : Nat)
    (hC : ∀ c ∈ C, isZW c = false) :
    List.filter (fun c => !(isZW c))
      ((distributeLoop (bytes_to_zero_width data) cs C.length C 0 0).1 ++
        List.drop (distributeLoop (bytes_to_zero_width data) cs C.length C 0 0).2
          (bytes_to_zero_width data)) = C ∧
    List.filter isZW
      ((distributeLoop (bytes_to_zero_width data) cs C.length C 0 0).1 ++
        List.drop (distributeLoop (bytes_to_zero_width data) cs C.length C 0 0).2
          (bytes_to_zero_width data)) = bytes_to_zero_width data := by
  have hzwmem : ∀ c ∈ bytes_to_zero_width data, isZW c = true :=
    fun c hc => mem_bytes_to_zero_width_isZW hc
  obtain ⟨hf1, hf2⟩ := distributeLoop_filter (bytes_to_zero_width data) cs
    C.length hzwmem C 0 0 (Nat.zero_le _) hC
  have hdropmem : ∀ c ∈ (bytes_to_zero_width data).drop
      (distributeLoop (bytes_to_zero_width data) cs C.length C 0 0).2,
      isZW c = true :=
    fun c hc => hzwmem c (List.drop_subset _ _ hc)
  constructor
  · rw [List.filter_append, hf1,
      List.filter_eq_nil_iff.2 (fun c hc => by simp [hdropmem c hc]),
      List.append_nil]
  · rw [List.filter_append, List.filter_eq_self.2 hdropmem, hf2,
      List.drop_zero]

/-- Decoding a distributed artifact over a clean cover recovers the
encoded byte sequence. -/
lemma zero_width_to_bytes_distributed (data : List Nat) (C : List Char)
    (cs : Nat) (hC : ∀ c ∈ C, isZW c = false)
    (hdata : ∀ b ∈ data, b < 256) (hne : data ≠ []) :
    zero_width_to_bytes
      ((distributeLoop (bytes_to_zero_width data) cs C.length C 0 0).1 ++
        List.drop (distributeLoop (bytes_to_zero_width data) cs C.length C 0 0).2
          (bytes_to_zero_width data)) =
      .ok data := by
  rw [zero_width_to_bytes_filter, (artifact_filters data C cs hC).2,
    zero_width_to_bytes_encode data hdata]
  simp [hne]

/-- `extract` on a decode result with at least four bytes: split off the
stored checksum and compare with the recomputed one. -/
lemma extract_cons4 (s : List Char) (b0 b1 b2 b3 : Nat) (rest : List Nat)
    (hz : zero_width_to_bytes s = .ok (b0 :: b1 :: b2 :: b3 :: rest)) :
    extract s = if fromLeBytes b0 b1 b2 b3 = crc32 rest then .ok rest
      else .error .integrityFailure := by
  rw [extract, hz]
  dsimp only
  rw [if_neg (by simp)]
  show (if fromLeBytes b0 b1 b2 b3 ≠ crc32 rest then
      (Except.error StegoError.integrityFailure : Except StegoError (List Nat))
    else Except.ok rest) = _
  by_cases h : fromLeBytes b0 b1 b2 b3 = crc32 rest
  · rw [if_neg (not_not.2 h), if_pos h]
  · rw [if_pos h, if_neg h]

/-- `extract` propagates a decoding failure. -/
lemma extract_err (s : List Char) (e : StegoError)
    (hz : zero_width_to_bytes s = .error e) : extract s = .error e := by
  rw [extract, hz]

/-- `extract` on a decode result shorter than the 4-byte checksum. -/
lemma extract_short (s : List Char) (d : List Nat)
    (hz : zero_width_to_bytes s = .ok d) (hlen : d.length < 4) :
    extract s = .error .noDataFound := by
  rw [extract, hz]
  dsimp only
  rw [if_pos hlen]

/-- A separator arriving at a bit count other than 8 leaves the decoder
state untouched: no byte is emitted, no reset, no error. -/
lemma decodeStep_joiner_misaligned (s : DecState) (h : s.bitCount ≠ 8) :
    decodeStep s ZW_JOINER = s := by
  have h1 : (ZW_JOINER == ZW_SPACE) = false := by decide
  have h2 : (ZW_JOINER == ZW_NON_JOINER) = false := by decide
  have h3 : (ZW_JOINER == ZW_JOINER) = true := by decide
  have h4 : (s.bitCount == 8) = false := by simpa using h
  simp [decodeStep, h1, h2, h3, h4]

/-- With no BIT1 symbol in the input, the accumulator stays zero and every
committed byte is zero. -/
lemma foldl_decodeStep_no_bit1 :
    ∀ (l : List Char) (res : List Nat) (cnt : Nat),
      (∀ c ∈ l, c ≠ ZW_NON_JOINER) → (∀ b ∈ res, b = 0) →
      (∀ b ∈ (l.foldl decodeStep ⟨res, 0, cnt⟩).result, b = 0) ∧
      (l.foldl decodeStep ⟨res, 0, cnt⟩).currentByte = 0 := by
  intro l
  induction l with
  | nil => intro res cnt _ hres; exact ⟨hres, rfl⟩
  | cons c cs ih =>
    intro res cnt hl hres
    have hc : c ≠ ZW_NON_JOINER := hl c (List.mem_cons_self c cs)
    have hcs : ∀ x ∈ cs, x ≠ ZW_NON_JOINER :=
      fun x hx => hl x (List.mem_cons_of_mem _ hx)
    rw [List.foldl_cons]
    by_cases h0 : c = ZW_SPACE
    · subst h0
      have hstep : decodeStep ⟨res, 0, cnt⟩ ZW_SPACE = ⟨res, 0, cnt + 1⟩ := by
        simp [decodeStep]
      rw [hstep]
      exact ih res (cnt + 1) hcs hres
    by_cases h1 : c = ZW_JOINER
    · subst h1
      have hj1 : (ZW_JOINER == ZW_SPACE) = false := by decide
      have hj2 : (ZW_JOINER == ZW_NON_JOINER) = false := by decide
      have hj3 : (ZW_JOINER == ZW_JOINER) = true := by decide
      by_cases h8 : cnt = 8
      · have hstep : decodeStep ⟨res, 0, cnt⟩ ZW_JOINER = ⟨res ++ [0], 0, 0⟩ := by
          simp [decodeStep, hj1, hj2, hj3, h8]
        rw [hstep]
        refine ih (res ++ [0]) 0 hcs ?_
        intro b hb
        rcases List.mem_append.1 hb with h' | h'
        · exact hres b h'
        · simpa using h'
      · have hstep : decodeStep ⟨res, 0, cnt⟩ ZW_JOINER = ⟨res, 0, cnt⟩ := by
          have h8' : (cnt == 8) = false := by simpa using h8
          simp [decodeStep, hj1, hj2, hj3, h8']
        rw [hstep]
        exact ih res cnt hcs hres
    · have hzw : isZW c = false := by
        simp [isZW, h0, hc, h1]
      rw [decodeStep_not_zw hzw]
      exact ih res cnt hcs hres

/-- The decoder's accumulator is a `u8`: it stays below 256, and so does
every committed byte. -/
lemma foldl_decodeStep_lt256 :
    ∀ (l : List Char) (res : List Nat) (cur cnt : Nat),
      (∀ b ∈ res, b < 256) → cur < 256 →
      (∀ b ∈ (l.foldl decodeStep ⟨res, cur, cnt⟩).result, b < 256) ∧
      (l.foldl decodeStep ⟨res, cur, cnt⟩).currentByte < 256 := by
  intro l
  induction l with
  | nil => intro res cur cnt hres hcur; exact ⟨hres, hcur⟩
  | cons c cs ih =>
    intro res cur cnt hres hcur
    rw [List.foldl_cons]
    by_cases h0 : c = ZW_SPACE
    · subst h0
      have hstep : decodeStep ⟨res, cur, cnt⟩ ZW_SPACE =
          ⟨res, (cur * 2) % 256 ||| 0, cnt + 1⟩ := by
        simp [decodeStep]
      rw [hstep]
      refine ih res _ _ hres ?_
      have hz0 : cur * 2 % 256 ||| 0 = cur * 2 % 256 := by simp
      rw [hz0]
      omega
    by_cases h1 : c = ZW_NON_JOINER
    · subst h1
      have hn1 : (ZW_NON_JOINER == ZW_SPACE) = false := by decide
      have hn2 : (ZW_NON_JOINER == ZW_NON_JOINER) = true := by decide
      have hstep : decodeStep ⟨res, cur, cnt⟩ ZW_NON_JOINER =
          ⟨res, (cur * 2) % 256 ||| 1, cnt + 1⟩ := by
        simp [decodeStep, hn1, hn2]
      rw [hstep]
      refine ih res _ _ hres ?_
      have hm : (cur * 2) % 256 < 2 ^ 8 := by
        have := Nat.mod_lt (cur * 2) (y := 256) (by norm_num)
        omega
      have hone : (1 : Nat) < 2 ^ 8 := by norm_num
      have hlor := lor_lt_two_pow hm hone
      omega
    by_cases h2 : c = ZW_JOINER
    · subst h2
      have hj1 : (ZW_JOINER == ZW_SPACE) = false := by decide
      have hj2 : (ZW_JOINER == ZW_NON_JOINER) = false := by decide
      have hj3 : (ZW_JOINER == ZW_JOINER) = true := by decide
      by_cases h8 : cnt = 8
      · have hstep : decodeStep ⟨res, cur, cnt⟩ ZW_JOINER =
            ⟨res ++ [cur], 0, 0⟩ := by
          simp [decodeStep, hj1, hj2, hj3, h8]
        rw [hstep]
        refine ih (res ++ [cur]) 0 0 ?_ (by norm_num)
        intro b hb
        rcases List.mem_append.1 hb with h' | h'
        · exact hres b h'
        · simp only [List.mem_singleton] at h'
          omega
      · have hstep : decodeStep ⟨res, cur, cnt⟩ ZW_JOINER = ⟨res, cur, cnt⟩ := by
          have h8' : (cnt == 8) = false := by simpa using h8
          simp [decodeStep, hj1, hj2, hj3, h8']
        rw [hstep]
        exact ih res cur cnt hres hcur
    · have hzw : isZW c = false := by
        simp [isZW, h0, h1, h2]
      rw [decodeStep_not_zw hzw]
      exact ih res cur cnt hres hcur

/-- Every byte a successful decode returns is below 256. -/
lemma zero_width_to_bytes_lt256 (s : List Char) (d : List Nat)
    (h : zero_width_to_bytes s = .ok d) : ∀ b ∈ d, b < 256 := by
  rw [zero_width_to_bytes] at h
  split at h
  · exact absurd h (by simp)
  · have hres : (s.foldl decodeStep ⟨[], 0, 0⟩).result = d := by
      injection h
    rw [← hres]
    exact (foldl_decodeStep_lt256 s [] 0 0 (by simp) (by norm_num)).1

/-- The decoder's only failure is `NoDataFound`. -/
lemma zero_width_to_bytes_error_kind (s : List Char) (e : StegoError)
    (h : zero_width_to_bytes s = .error e) : e = .noDataFound := by
  rw [zero_width_to_bytes] at h
  split at h
  · injection h with h'
    exact h'.symm
  · exact absurd h (by simp)

/-- `extract` succeeds only when the decoded byte sequence is literally
the checksum-prepended form of the payload it returns: a success on any
input — corrupted or not — means the four stored checksum bytes equal the
little-endian CRC-32 of the returned payload. -/
lemma extract_ok_checksummed (s : List Char) (p : List Nat)
    (h : extract s = .ok p) :
    zero_width_to_bytes s = .ok (toLeBytes (crc32 p) ++ p) := by
  cases hz : zero_width_to_bytes s with
  | error e =>
    rw [extract_err _ _ hz] at h
    exact absurd h (by simp)
  | ok d =>
    by_cases hlen : d.length < 4
    · rw [extract_short _ _ hz hlen] at h
      exact absurd h (by simp)
    · rcases d with _ | ⟨b0, d⟩
      · exact absurd (by simp) hlen
      rcases d with _ | ⟨b1, d⟩
      · exact absurd (by simp) hlen
      rcases d with _ | ⟨b2, d⟩
      · exact absurd (by simp) hlen
      rcases d with _ | ⟨b3, rest⟩
      · exact absurd (by simp) hlen
      have hlt := zero_width_to_bytes_lt256 s _ hz
      rw [extract_cons4 _ _ _ _ _ _ hz] at h
      by_cases hc : fromLeBytes b0 b1 b2 b3 = crc32 rest
      · rw [if_pos hc] at h
        injection h with hp
        subst hp
        have htole : toLeBytes (crc32 rest) = [b0, b1, b2, b3] := by
          rw [← hc]
          exact toLeBytes_fromLeBytes (hlt b0 (by simp)) (hlt b1 (by simp))
            (hlt b2 (by simp)) (hlt b3 (by simp))
        rw [htole]
        rfl
      · rw [if_neg hc] at h
        exact absurd h (by simp)

/-- The only errors `extract` ever raises are `NoDataFound` and
`IntegrityFailure`. -/
lemma extract_error_kinds (s : List Char) (e : StegoError)
    (h : extract s = .error e) :
    e = .noDataFound ∨ e = .integrityFailure := by
  cases hz : zero_width_to_bytes s with
  | error e' =>
    rw [extract_err _ _ hz] at h
    injection h with h'
    left
    rw [← h', zero_width_to_bytes_error_kind s e' hz]
  | ok d =>
    by_cases hlen : d.length < 4
    · rw [extract_short _ _ hz hlen] at h
      injection h with h'
      left
      exact h'.symm
    · rcases d with _ | ⟨b0, d⟩
      · exact absurd (by simp) hlen
      rcases d with _ | ⟨b1, d⟩
      · exact absurd (by simp) hlen
      rcases d with _ | ⟨b2, d⟩
      · exact absurd (by simp) hlen
      rcases d with _ | ⟨b3, rest⟩
      · exact absurd (by simp) hlen
      rw [extract_cons4 _ _ _ _ _ _ hz] at h
      by_cases hc : fromLeBytes b0 b1 b2 b3 = crc32 rest
      · rw [if_pos hc] at h
        exact absurd h (by simp)
      · rw [if_neg hc] at h
        injection h with h'
        right
        exact h'.symm

/-- The fallible distribution loop never actually fails, and agrees with
the total one. -/
lemma distributeLoopChecked_eq (zw : List Char) (cs total : Nat) :
    ∀ (vis : List Char) (i zwIdx : Nat), vis.length ≤ total → zwIdx ≤ zw.length →
      distributeLoopChecked zw cs total vis i zwIdx =
        some (distributeLoop zw cs total vis i zwIdx) := by
  intro vis
  induction vis with
  | nil => intro i zwIdx _ _; rfl
  | cons ch rest ih =>
    intro i zwIdx hlen hidx
    have hsub : checkedSub total 1 = some (total - 1) := by
      rw [checkedSub, if_pos]
      simp only [List.length_cons] at hlen
      omega
    rw [distributeLoopChecked, distributeLoop_cons, hsub]
    simp only [Option.bind_eq_bind, Option.some_bind]
    split
    case isTrue hcond =>
      have he1 : zwIdx ≤ min (zwIdx + cs + 1) zw.length :=
        le_min (by omega) (le_of_lt hcond.2)
      have he2 : min (zwIdx + cs + 1) zw.length ≤ zw.length := min_le_right _ _
      have hslice : sliceChecked zw zwIdx (min (zwIdx + cs + 1) zw.length) =
          some ((zw.drop zwIdx).take (min (zwIdx + cs + 1) zw.length - zwIdx)) := by
        rw [sliceChecked, if_pos ⟨he1, he2⟩]
      rw [hslice]
      simp only [Option.some_bind]
      rw [ih (i + 1) (min (zwIdx + cs + 1) zw.length)
        (by simp only [List.length_cons] at hlen; omega) he2]
      simp
    case isFalse =>
      rw [ih (i + 1) zwIdx
        (by simp only [List.length_cons] at hlen; omega) hidx]
      simp

/-- The fallible `embed` never fails and agrees with the total one. -/
lemma embedChecked_eq (C : List Char) (P : List Nat) :
    embedChecked C P = some (embed C P) := by
  simp only [embedChecked, embed]
  split
  · rfl
  · rw [distributeLoopChecked_eq _ _ _ C 0 0 (le_refl _) (Nat.zero_le _)]
    simp only [Option.bind_eq_bind, Option.some_bind]
    have hcur := distributeLoop_cursor (bytes_to_zero_width (toLeBytes (crc32 P) ++ P))
      (if C.length - 1 > 0
        then (bytes_to_zero_width (toLeBytes (crc32 P) ++ P)).length / (C.length - 1)
        else (bytes_to_zero_width (toLeBytes (crc32 P) ++ P)).length)
      C.length C 0 0 (Nat.zero_le _)
    have hslice : sliceChecked (bytes_to_zero_width (toLeBytes (crc32 P) ++ P))
        (distributeLoop (bytes_to_zero_width (toLeBytes (crc32 P) ++ P))
          (if C.length - 1 > 0
            then (bytes_to_zero_width (toLeBytes (crc32 P) ++ P)).length / (C.length - 1)
            else (bytes_to_zero_width (toLeBytes (crc32 P) ++ P)).length)
          C.length C 0 0).2
        (bytes_to_zero_width (toLeBytes (crc32 P) ++ P)).length =
        some (List.drop
          (distributeLoop (bytes_to_zero_width (toLeBytes (crc32 P) ++ P))
            (if C.length - 1 > 0
              then (bytes_to_zero_width (toLeBytes (crc32 P) ++ P)).length / (C.length - 1)
              else (bytes_to_zero_width (toLeBytes (crc32 P) ++ P)).length)
            C.length C 0 0).2
          (bytes_to_zero_width (toLeBytes (crc32 P) ++ P))) := by
      rw [sliceChecked, if_pos ⟨hcur.2, le_refl _⟩]
      congr 1
      apply List.take_of_length_le
      rw [List.length_drop]
    rw [hslice]
    simp

/-- The fallible `extract` never fails and agrees with the total one. -/
lemma extractChecked_eq (artifact : List Char) :
    extractChecked artifact = some (extract artifact) := by
  rw [extractChecked, extract]
  cases hz : zero_width_to_bytes artifact with
  | error e => rfl
  | ok d =>
    dsimp only
    by_cases hlen : d.length < 4
    · rw [if_pos hlen, if_pos hlen]
    · rw [if_neg hlen, if_neg hlen]
      rcases d with _ | ⟨b0, d⟩
      · exact absurd (by simp) hlen
      rcases d with _ | ⟨b1, d⟩
      · exact absurd (by simp) hlen
      rcases d with _ | ⟨b2, d⟩
      · exact absurd (by simp) hlen
      rcases d with _ | ⟨b3, rest⟩
      · exact absurd (by simp) hlen
      simp only [List.getElem?_cons_zero, List.getElem?_cons_succ,
        Option.bind_eq_bind, Option.some_bind,
        show ((b0 :: b1 :: b2 :: b3 :: rest).getD 0 0) = b0 from rfl,
        show ((b0 :: b1 :: b2 :: b3 :: rest).getD 1 0) = b1 from rfl,
        show ((b0 :: b1 :: b2 :: b3 :: rest).getD 2 0) = b2 from rfl,
        show ((b0 :: b1 :: b2 :: b3 :: rest).getD 3 0) = b3 from rfl]
      split <;> rfl

/-! ### Claim theorems -/

/-- Claim C1 (amended): for every payload byte sequence `P` and every
cover text `C` that contains no invisible-alphabet character and has
`capacity(C) ≥ len(P) + 4`, `extract (embed C P)` succeeds and returns
exactly `P`. -/
theorem embed_extract_roundtrip (C : List Char) (P : List Nat)
    (hC : ∀ c ∈ C, isZW c = false)
    (hP : ∀ b ∈ P, b < 256)
    (hcap : P.length + 4 ≤ capacityOf C) :
    ∃ A, embed C P = .ok A ∧ extract A = .ok P := by
  have hdlen := checksummed_length P
  have hdlt := checksummed_lt P hP
  have hne : toLeBytes (crc32 P) ++ P ≠ [] := by
    intro h
    rw [h] at hdlen
    simp at hdlen
    omega
  have hcapacity : ¬ ((C.length - 1) / 9 < (toLeBytes (crc32 P) ++ P).length) := by
    rw [hdlen]
    rw [capacityOf] at hcap
    omega
  simp only [embed]
  rw [if_neg hcapacity]
  refine ⟨_, rfl, ?_⟩
  have hz := zero_width_to_bytes_distributed (toLeBytes (crc32 P) ++ P) C
    (if C.length - 1 > 0
      then (bytes_to_zero_width (toLeBytes (crc32 P) ++ P)).length / (C.length - 1)
      else (bytes_to_zero_width (toLeBytes (crc32 P) ++ P)).length)
    hC hdlt hne
  rw [toLeBytes] at hz ⊢
  simp only [List.cons_append, List.nil_append] at hz ⊢
  rw [extract_cons4 _ _ _ _ _ _ hz,
    if_pos (fromLeBytes_toLeBytes (crc32_lt P))]

/-- Claim C1, counterexample to the unamended statement: a cover text made
of 91 BIT1 symbols has capacity 10 ≥ 0 + 4 and `embed` succeeds on the
empty payload, yet `extract` of the artifact fails with `NoDataFound`
instead of returning the payload. -/
theorem roundtrip_fails_on_invisible_cover :
    4 ≤ capacityOf cover91 ∧
    (embed cover91 []).toOption.isSome = true ∧
    extract ((embed cover91 []).toOption.getD []) = .error .noDataFound := by
  refine ⟨by decide, by decide, by decide⟩

/-- Claim C1, witness: the round trip at a concrete clean cover and
payload. -/
theorem embed_extract_roundtrip_witness :
    ∃ A, embed cover46 [7] = .ok A ∧ extract A = .ok [7] :=
  embed_extract_roundtrip cover46 [7] (by decide) (by decide) (by decide)

/-- Claim C2 (amended): for every cover text `C` with no
invisible-alphabet character and payload `P` for which `embed C P`
succeeds, removing every invisible-alphabet character from the artifact
yields exactly `C`, and the artifact's invisible-alphabet characters in
order are exactly the encoded checksum-prepended payload. -/
theorem embed_projections (C : List Char) (P : List Nat) (A : List Char)
    (hC : ∀ c ∈ C, isZW c = false) (hok : embed C P = .ok A) :
    A.filter (fun c => !(isZW c)) = C ∧
    A.filter isZW = bytes_to_zero_width (toLeBytes (crc32 P) ++ P) := by
  simp only [embed] at hok
  split at hok
  · simp at hok
  · simp only [Except.ok.injEq] at hok
    subst hok
    exact artifact_filters (toLeBytes (crc32 P) ++ P) C _ hC

/-- Claim C2, counterexample to the unamended statement: for the all-BIT1
cover, `embed` succeeds but stripping the invisible alphabet from the
artifact yields the empty string, not the cover. -/
theorem visible_projection_fails_on_invisible_cover :
    (embed cover91 []).toOption.isSome = true ∧
    ¬ (((embed cover91 []).toOption.getD []).filter
        (fun c => !(isZW c)) = cover91) := by
  refine ⟨by decide, by decide⟩

/-- Claim C2, witness: the projections at a concrete clean cover. -/
theorem embed_projections_witness :
    ∃ A, embed cover40 [] = .ok A ∧
      A.filter (fun c => !(isZW c)) = cover40 ∧
      A.filter isZW = bytes_to_zero_width (toLeBytes (crc32 []) ++ []) := by
  refine ⟨(embed cover40 []).toOption.getD [], by decide, ?_⟩
  exact embed_projections cover40 [] _ (by decide) (by decide)

/-- Claim C3: `embed` fails with
`InsufficientCover{needed = len(P) + 4, available = capacity(C)}` whenever
`capacity(C) < len(P) + 4` (the check runs before any placement, so the
error is the whole result and no output string exists), and a cover with
fewer than 9 characters has capacity 0, so `embed` fails on it for every
payload. -/
theorem embed_capacity_rejection :
    (∀ (C : List Char) (P : List Nat), capacityOf C < P.length + 4 →
      embed C P = .error (.insufficientCover (P.length + 4) (capacityOf C))) ∧
    (∀ (C : List Char) (P : List Nat), C.length < 9 →
      capacityOf C = 0 ∧
      embed C P = .error (.insufficientCover (P.length + 4) (capacityOf C))) := by
  have main : ∀ (C : List Char) (P : List Nat), capacityOf C < P.length + 4 →
      embed C P = .error (.insufficientCover (P.length + 4) (capacityOf C)) := by
    intro C P h
    have hlen := checksummed_length P
    rw [capacityOf] at h
    simp only [embed]
    rw [if_pos (by rw [hlen]; omega), hlen]
    simp [capacityOf, Nat.add_comm]
  refine ⟨main, fun C P h9 => ?_⟩
  have hcap0 : capacityOf C = 0 := by
    rw [capacityOf]
    omega
  exact ⟨hcap0, main C P (by rw [hcap0]; omega)⟩

/-- Claim C3, witness: a 5-character cover rejects a 1-byte payload with
the exact error fields. -/
theorem embed_capacity_rejection_witness :
    capacityOf (List.replicate 5 'x') < [9].length + 4 ∧
    embed (List.replicate 5 'x') [9] =
      .error (.insufficientCover ([9].length + 4)
        (capacityOf (List.replicate 5 'x'))) :=
  ⟨by decide, embed_capacity_rejection.1 (List.replicate 5 'x') [9] (by decide)⟩

/-- Claim C4 (amended): when a SEPARATOR symbol arrives and the current
bit-count is not 8, the decoder leaves the accumulator and bit-count
unchanged — no byte is emitted and no error is raised (the decoder does
not reset the in-progress state, contrary to the claim's wording). -/
theorem decode_sep_misaligned_no_reset (s : DecState) (h : s.bitCount ≠ 8) :
    decodeStep s ZW_JOINER = s :=
  decodeStep_joiner_misaligned s h

/-- Claim C4, counterexample: on seven BIT0s, SEPARATOR, BIT1, SEPARATOR,
the code's decoder commits the byte `0x01` (the bits straddling the first
separator combine), while a decoder that discarded (reset) the
accumulator state on a misaligned separator, as the claim describes,
would find no byte at all. -/
theorem decode_sep_reset_refuted :
    zero_width_to_bytes misalignedSep = .ok [1] ∧
    zero_width_to_bytes_specReset misalignedSep = .error .noDataFound ∧
    zero_width_to_bytes misalignedSep ≠
      zero_width_to_bytes_specReset misalignedSep :=
  ⟨rfl, rfl, by decide⟩

/-- Claim C4, witness: a concrete misaligned state is left unchanged. -/
theorem decode_sep_misaligned_no_reset_witness :
    (⟨[], 3, 5⟩ : DecState).bitCount ≠ 8 ∧
    decodeStep ⟨[], 3, 5⟩ ZW_JOINER = ⟨[], 3, 5⟩ :=
  ⟨by decide, decode_sep_misaligned_no_reset ⟨[], 3, 5⟩ (by decide)⟩

/-- After removing every BIT1 symbol from a text, `extract` fails with
`NoDataFound` or `IntegrityFailure`, or — only in the checksum-collision
case — succeeds with an all-zero payload whose CRC-32 is 0. -/
lemma extract_remove_bit1_cases (s : List Char) :
    extract (removeAllBit1 s) = .error .noDataFound ∨
    extract (removeAllBit1 s) = .error .integrityFailure ∨
    (∃ p, extract (removeAllBit1 s) = .ok p ∧
      p = List.replicate p.length 0 ∧ crc32 p = 0) := by
  have hnom : ∀ c ∈ removeAllBit1 s, c ≠ ZW_NON_JOINER := by
    intro c hc
    rw [removeAllBit1] at hc
    have h' := List.of_mem_filter hc
    simpa using h'
  obtain ⟨hall, _⟩ := foldl_decodeStep_no_bit1 (removeAllBit1 s) [] 0 hnom (by simp)
  cases hz : zero_width_to_bytes (removeAllBit1 s) with
  | error e =>
    have he : e = .noDataFound := by
      rw [zero_width_to_bytes] at hz
      split at hz
      · injection hz with h'
        exact h'.symm
      · exact absurd hz (by simp)
    left
    rw [extract_err _ _ hz, he]
  | ok d =>
    have hd : ∀ b ∈ d, b = 0 := by
      rw [zero_width_to_bytes] at hz
      split at hz
      · exact absurd hz (by simp)
      · have hres : ((removeAllBit1 s).foldl decodeStep ⟨[], 0, 0⟩).result = d := by
          injection hz
        rw [← hres]
        exact hall
    by_cases hlen : d.length < 4
    · left
      exact extract_short _ _ hz hlen
    · rcases d with _ | ⟨b0, d⟩
      · exact absurd (by simp) hlen
      rcases d with _ | ⟨b1, d⟩
      · exact absurd (by simp) hlen
      rcases d with _ | ⟨b2, d⟩
      · exact absurd (by simp) hlen
      rcases d with _ | ⟨b3, rest⟩
      · exact absurd (by simp) hlen
      have hb0 : b0 = 0 := hd b0 (by simp)
      have hb1 : b1 = 0 := hd b1 (by simp)
      have hb2 : b2 = 0 := hd b2 (by simp)
      have hb3 : b3 = 0 := hd b3 (by simp)
      subst hb0; subst hb1; subst hb2; subst hb3
      have hrest : ∀ b ∈ rest, b = 0 := fun b hb => hd b (by simp [hb])
      rw [extract_cons4 _ _ _ _ _ _ hz]
      have hfrom : fromLeBytes 0 0 0 0 = 0 := rfl
      by_cases hcrc : crc32 rest = 0
      · right; right
        refine ⟨rest, ?_, ?_, hcrc⟩
        · rw [if_pos (by rw [hfrom, hcrc])]
        · exact List.eq_replicate_iff.2 ⟨rfl, hrest⟩
      · right; left
        rw [if_neg (by rw [hfrom]; exact fun hh => hcrc hh.symm)]

/-- Claim C5 (amended): on any input — in particular on a valid artifact
with one or more SEPARATOR or BIT1 characters removed — `extract` raises
only `NoDataFound` or `IntegrityFailure`, and it succeeds only when the
decoded byte sequence is exactly the checksum-prepended form of the
payload it returns, so silently returning payload bytes other than the
original requires the stored checksum to collide with the returned
payload's CRC-32 (the residual case the claim excepts); after removing
every BIT1 instance such a collision success is moreover only possible
with an all-zero payload whose CRC-32 is 0 — which actually occurs for the
empty payload's artifact, where the removal is a no-op and `extract`
succeeds instead of erroring. -/
theorem corruption_detection :
    (∀ (s : List Char) (e : StegoError), extract s = .error e →
      e = .noDataFound ∨ e = .integrityFailure) ∧
    (∀ (s : List Char) (p : List Nat), extract s = .ok p →
      zero_width_to_bytes s = .ok (toLeBytes (crc32 p) ++ p)) ∧
    (∀ s : List Char,
      extract (removeAllBit1 s) = .error .noDataFound ∨
      extract (removeAllBit1 s) = .error .integrityFailure ∨
      (∃ p, extract (removeAllBit1 s) = .ok p ∧
        p = List.replicate p.length 0 ∧ crc32 p = 0)) :=
  ⟨extract_error_kinds, extract_ok_checksummed, extract_remove_bit1_cases⟩

/-- Claim C5, counterexample: the artifact of the empty payload contains
no BIT1 symbol, so removing every BIT1 instance leaves it intact and
`extract` succeeds (returning the empty payload) instead of returning an
error. -/
theorem remove_bit1_extract_succeeds :
    (embed cover40 []).toOption.isSome = true ∧
    extract (removeAllBit1 ((embed cover40 []).toOption.getD [])) =
      .ok [] :=
  ⟨by decide, by decide⟩

/-- Claim C5, witness: a concrete successful extraction decodes to
exactly the checksum-prepended form of the returned payload. -/
theorem corruption_detection_witness :
    zero_width_to_bytes ((embed cover40 []).toOption.getD []) =
      .ok (toLeBytes (crc32 []) ++ []) :=
  corruption_detection.2.1 ((embed cover40 []).toOption.getD []) []
    (by decide)

/-- Claim C6: `extract` decodes only the invisible-alphabet characters,
fails with `NoDataFound` whenever the decoded byte sequence is empty (in
particular on text with no invisible characters) or has fewer than 4
bytes, otherwise reads the first 4 bytes as a little-endian stored
checksum, recomputes CRC-32 over the rest, fails with `IntegrityFailure`
exactly when they differ and returns the rest; the empty payload's
checksummed form is exactly 4 bytes and round-trips to an empty
extraction. -/
theorem extract_pipeline :
    (∀ s : List Char, zero_width_to_bytes s =
      zero_width_to_bytes (s.filter isZW)) ∧
    (∀ s : List Char, (s.foldl decodeStep ⟨[], 0, 0⟩).result = [] →
      extract s = .error .noDataFound) ∧
    (∀ s : List Char, (∀ c ∈ s, isZW c = false) →
      extract s = .error .noDataFound) ∧
    (∀ (s : List Char) (d : List Nat), zero_width_to_bytes s = .ok d →
      d.length < 4 → extract s = .error .noDataFound) ∧
    (∀ (s : List Char) (b0 b1 b2 b3 : Nat) (rest : List Nat),
      zero_width_to_bytes s = .ok (b0 :: b1 :: b2 :: b3 :: rest) →
      extract s = if fromLeBytes b0 b1 b2 b3 = crc32 rest then .ok rest
        else .error .integrityFailure) ∧
    ((toLeBytes (crc32 ([] : List Nat)) ++ ([] : List Nat)).length = 4 ∧
      ∃ A, embed cover40 [] = .ok A ∧ extract A = .ok ([] : List Nat)) := by
  have hempty : ∀ s : List Char, (s.foldl decodeStep ⟨[], 0, 0⟩).result = [] →
      extract s = .error .noDataFound := by
    intro s h
    have hz : zero_width_to_bytes s = .error .noDataFound := by
      rw [zero_width_to_bytes]
      simp [h]
    exact extract_err _ _ hz
  refine ⟨zero_width_to_bytes_filter, hempty, ?_, extract_short, extract_cons4,
    by decide, ⟨(embed cover40 []).toOption.getD [], by decide, by decide⟩⟩
  intro s h
  have hfil : s.filter isZW = [] :=
    List.filter_eq_nil_iff.2 (fun c hc => by simp [h c hc])
  have hz : zero_width_to_bytes s = .error .noDataFound := by
    rw [zero_width_to_bytes_filter, hfil]
    rfl
  exact extract_err _ _ hz

/-- Claim C6, witness: a plain two-character text (no invisible
characters) and a lone separator (invisible characters present but an
empty decode) both extract to `NoDataFound`. -/
theorem extract_pipeline_witness :
    extract ['h', 'i'] = .error .noDataFound ∧
    extract [ZW_JOINER] = .error .noDataFound :=
  ⟨extract_pipeline.2.2.1 ['h', 'i'] (by decide),
   extract_pipeline.2.1 [ZW_JOINER] (by decide)⟩

/-- Claim C7: the encoder maps each byte to its 8 bits
most-significant-bit first (the `j`-th symbol encodes bit `7 − j`) as
BIT1/BIT0 symbols followed by exactly one SEPARATOR, and its output
length is exactly `9 · len(bytes)`; determinism is inherent in it being a
function. -/
theorem encode_msb_first_nine_per_byte :
    (∀ data : List Nat, bytes_to_zero_width data =
      data.flatMap (fun b =>
        (List.range 8).map (fun j =>
          if (b >>> (7 - j)) &&& 1 == 1 then ZW_NON_JOINER else ZW_SPACE) ++
        [ZW_JOINER])) ∧
    (∀ data : List Nat, (bytes_to_zero_width data).length = 9 * data.length) := by
  constructor
  · intro data
    rw [bytes_to_zero_width_eq]
    congr 1
  · exact bytes_to_zero_width_length

/-- Claim C8: whenever `len(symbol_stream) ≤ chunk_size · injection_points
+ injection_points` (which the capacity check guarantees), the
distribution loop consumes every symbol within the injection slots, so
nothing is left to append after the walk. -/
theorem distributor_consumes_all (zw : List Char) (cs : Nat) (C : List Char)
    (hne : C ≠ [])
    (hcap : zw.length ≤ cs * (C.length - 1) + (C.length - 1)) :
    (distributeLoop zw cs C.length C 0 0).2 = zw.length ∧
    (distributeLoop zw cs C.length C 0 0).1 ++
        List.drop (distributeLoop zw cs C.length C 0 0).2 zw =
      (distributeLoop zw cs C.length C 0 0).1 := by
  have h := distributeLoop_finalIdx zw cs C.length C 0 0 hne (by simp)
    (Nat.zero_le _)
  have h2 : (cs + 1) * (C.length - 1) = cs * (C.length - 1) + (C.length - 1) := by
    rw [Nat.succ_mul]
  have hfin : (distributeLoop zw cs C.length C 0 0).2 = zw.length := by
    rw [h, h2]
    omega
  exact ⟨hfin, by rw [hfin, List.drop_length, List.append_nil]⟩

/-- Claim C8, witness: a 9-symbol stream and a 10-character cover with
chunk size 0 consume every symbol inside the slots. -/
theorem distributor_consumes_all_witness :
    (List.replicate 10 'a' : List Char) ≠ [] ∧
    (bytes_to_zero_width [5]).length ≤
      0 * ((List.replicate 10 'a' : List Char).length - 1) +
        ((List.replicate 10 'a' : List Char).length - 1) ∧
    (distributeLoop (bytes_to_zero_width [5]) 0
      (List.replicate 10 'a' : List Char).length (List.replicate 10 'a') 0 0).2 =
      (bytes_to_zero_width [5]).length :=
  ⟨by decide, by decide,
    (distributor_consumes_all (bytes_to_zero_width [5]) 0
      (List.replicate 10 'a') (by decide) (by decide)).1⟩

/-- Claim C9: a SEPARATOR arriving at a bit-count other than 8 leaves the
decoder state completely unchanged (no reset), so bit symbols before and
after it combine into one committed byte: seven BIT0s, SEPARATOR, one
BIT1, SEPARATOR decode to exactly the single byte `0x01`. -/
theorem decode_sep_preserves_state :
    (∀ s : DecState, s.bitCount ≠ 8 → decodeStep s ZW_JOINER = s) ∧
    zero_width_to_bytes misalignedSep = .ok [1] :=
  ⟨decodeStep_joiner_misaligned, rfl⟩

/-- Claim C9, witness: a concrete state with bit-count 7 is preserved. -/
theorem decode_sep_preserves_state_witness :
    (⟨[2], 7, 7⟩ : DecState).bitCount ≠ 8 ∧
    decodeStep ⟨[2], 7, 7⟩ ZW_JOINER = ⟨[2], 7, 7⟩ :=
  ⟨by decide, decode_sep_preserves_state.1 ⟨[2], 7, 7⟩ (by decide)⟩

/-- Claim C10: `embed` and `extract` are total — the variants in which
the checksum-byte index accesses, the loop-guard subtraction and the
symbol-slice bounds are modelled as fallible operations never fail and
agree with the total functions, so every call returns a value or a
`StegoError` and no panic is reachable. -/
theorem no_panic_refinement :
    (∀ artifact : List Char, extractChecked artifact = some (extract artifact)) ∧
    (∀ (C : List Char) (P : List Nat), embedChecked C P = some (embed C P)) :=
  ⟨extractChecked_eq, embedChecked_eq⟩

end Stego
